import Mathlib

/-!
A verification development for the position cost-basis and reconciliation
engine of the invanalyzer repository.

The Python source is embedded shallowly:

* `Decimal` values are modelled as `ℚ` (the engine performs exact decimal
  arithmetic; rounding happens only at the output boundary and is modelled
  explicitly by `roundHalfEvenDp` below, matching `round(Decimal, n)`,
  which rounds half to even).
* `datetime.date` values are modelled as `ℕ` (only their linear order is
  used by the engine).
* Python `dict`s keyed by symbol or by date are modelled as association
  lists (`alistLookup` / `alistSet` mirror `d.get(k, default)` and
  `d[k] = v`, including insertion-order preservation).
* `None` becomes `Option.none`; code that can raise returns `Except`.

Each embedded function carries the name of the Python function it
translates (module noted in its doc comment).
-/

/-- Embeds `src/positions/transaction_utils.py` / `src/reporting/unrealized_gain_report.py`:
`PositionCost` dataclass — per-symbol position state (signed quantity and
cumulative book cost). -/
structure PositionCost where
  quantity : ℚ
  book_cost : ℚ
deriving DecidableEq, Repr

/-- Embeds `src/normalization/transactions.py`: the fields of the `TransactionRecord`
dataclass consumed by the position engine (identification and provenance
fields that the engine never reads are omitted). -/
structure TransactionRecord where
  account_name : String
  trade_date : Option ℕ
  settlement_date : Option ℕ
  symbol : Option String
  quantity : Option ℚ
  price : Option ℚ
  description : Option String
  debit : Option ℚ
  credit : Option ℚ
deriving DecidableEq, Repr

/-- Embeds `src/positions/reconcile.py`: the `TransactionRow` dataclass. -/
structure TransactionRow where
  account_name : String
  trade_date : Option ℕ
  settlement_date : Option ℕ
  symbol : Option String
  quantity : Option ℚ
  description : Option String
  debit : Option ℚ
  credit : Option ℚ
deriving DecidableEq, Repr

/-- Embeds `src/normalization/holdings.py`: the fields of the `HoldingRecord`
dataclass consumed by the unrealized-gain report, specialised to records
whose symbol and valuation date are present (the report keys its lookups
on them). -/
structure HoldingRecord where
  account_name : String
  valuation_date : ℕ
  symbol : String
  name : Option String
  quantity : Option ℚ
  price : Option ℚ
  average_price : Option ℚ
  market_value : Option ℚ
  book_cost : Option ℚ
  gain_loss : Option ℚ
  gain_loss_pct : Option ℚ
  currency : Option String
deriving DecidableEq, Repr

/-- Embeds `src/positions/reconcile.py`: the `PositionMismatch` dataclass. -/
structure PositionMismatch where
  account_name : String
  valuation_date : ℕ
  symbol : String
  holdings_quantity : ℚ
  transaction_quantity : ℚ
  delta : ℚ
deriving DecidableEq, Repr

/-- Embeds `src/reporting/unrealized_gain_report.py`: the `UnrealizedGainRow`
dataclass. -/
structure UnrealizedGainRow where
  account_name : String
  valuation_date : ℕ
  symbol : String
  name : Option String
  quantity : Option ℚ
  price : Option ℚ
  book_cost : ℚ
  market_value : ℚ
  unrealized_gain : ℚ
  unrealized_gain_pct : Option ℚ
  currency : Option String
deriving DecidableEq, Repr

/-- Python `dict` lookup `d[k]` (first matching binding). -/
def alistLookup {κ α : Type} [DecidableEq κ] : List (κ × α) → κ → Option α
  | [], _ => none
  | (k, v) :: rest, s => if k = s then some v else alistLookup rest s

/-- Python `d.get(k, default)`. -/
def alistGet {κ α : Type} [DecidableEq κ] (m : List (κ × α)) (k : κ) (dflt : α) : α :=
  (alistLookup m k).getD dflt

/-- Python `d[k] = v`: update in place when the key is present, append
otherwise (preserving insertion order, as Python dicts do). -/
def alistSet {κ α : Type} [DecidableEq κ] : List (κ × α) → κ → α → List (κ × α)
  | [], s, v => [(s, v)]
  | (k, w) :: rest, s, v => if k = s then (s, v) :: rest else (k, w) :: alistSet rest s v

/-- The per-symbol position mapping owned by the ledger
(`Dict[str, PositionCost]` in the source). -/
abbrev PMap := List (String × PositionCost)

/-- Python truthiness test `not s` for an `Optional[str]`:
true when the value is `None` or the empty string. -/
def strFalsy : Option String → Bool
  | none => true
  | some s => s = ""

/-- Python `x or Decimal("0")` for `x : Optional[Decimal]`: `Decimal` is
falsy exactly when zero, so the result is `0` when `x` is `None` or zero,
and `x` otherwise. -/
def pyOrZero (x : Option ℚ) : ℚ :=
  match x with
  | none => 0
  | some v => if v = 0 then 0 else v

theorem pyOrZero_eq_getD (x : Option ℚ) : pyOrZero x = x.getD 0 := by
  cases x with
  | none => rfl
  | some v =>
    by_cases h : v = 0 <;> simp [pyOrZero, h]

theorem alistLookup_alistSet_ne {κ α : Type} [DecidableEq κ]
    (m : List (κ × α)) (k s : κ) (v : α) (h : k ≠ s) :
    alistLookup (alistSet m k v) s = alistLookup m s := by
  induction m with
  | nil => simp [alistSet, alistLookup, h]
  | cons hd tl ih =>
    obtain ⟨k0, w⟩ := hd
    by_cases hk : k0 = k
    · subst hk
      simp [alistSet, alistLookup, h]
    · simp only [alistSet, if_neg hk]
      by_cases hs : k0 = s <;> simp [alistLookup, hs, ih]

namespace TransactionUtils

/-- Embeds `transaction_utils.effective_date`: `record.trade_date or
record.settlement_date` (dates are always truthy in Python). -/
def effective_date (record : TransactionRecord) : Option ℕ :=
  match record.trade_date with
  | some d => some d
  | none => record.settlement_date

/-- Embeds `transaction_utils.infer_signed_quantity_from_fields`. -/
def infer_signed_quantity_from_fields (quantity : Option ℚ) (description : Option String) :
    Option ℚ :=
  match quantity with
  | none => none
  | some q =>
    if description = some "buy" then some q
    else if description = some "sell" then some (-q)
    else none

/-- Embeds `transaction_utils.infer_signed_quantity`. -/
def infer_signed_quantity (record : TransactionRecord) : Option ℚ :=
  infer_signed_quantity_from_fields record.quantity record.description

/-- Embeds `transaction_utils.transaction_value`. -/
def transaction_value (record : TransactionRecord) (signed_quantity : ℚ) : Option ℚ :=
  match record.price, record.quantity with
  | some price, some quantity => some (price * quantity)
  | _, _ =>
    if 0 < signed_quantity ∧ record.debit.isSome then record.debit
    else if signed_quantity < 0 ∧ record.credit.isSome then record.credit
    else none

/-- Embeds `transaction_utils.apply_transaction_to_position_costs`: mutates the
positions dict and returns the realized gain on disposals; modelled as
returning the new mapping paired with the optional realized gain. -/
def apply_transaction_to_position_costs (record : TransactionRecord) (positions : PMap) :
    PMap × Option ℚ :=
  match infer_signed_quantity record with
  | none => (positions, none)
  | some signed_quantity =>
    match record.symbol with
    | none => (positions, none)
    | some symbol =>
      if symbol = "" then (positions, none)
      else if 0 < signed_quantity then
        let value := pyOrZero (transaction_value record signed_quantity)
        let position := alistGet positions symbol ⟨0, 0⟩
        (alistSet positions symbol
          ⟨position.quantity + signed_quantity, position.book_cost + value⟩, none)
      else
        match transaction_value record signed_quantity with
        | none => (positions, none)
        | some proceeds =>
          let sell_quantity := -signed_quantity
          let position := alistGet positions symbol ⟨0, 0⟩
          let average_cost :=
            if position.quantity = 0 then 0 else position.book_cost / position.quantity
          let cost_basis := average_cost * sell_quantity
          (alistSet positions symbol
            ⟨position.quantity - sell_quantity, position.book_cost - cost_basis⟩,
           some (proceeds - cost_basis))

end TransactionUtils

/-- Embeds `round(q, n)` on a Python `Decimal`: round half to even, returning the
nearest integer. -/
def roundHalfEvenInt (q : ℚ) : ℤ :=
  let f := Int.floor q
  let frac := q - f
  if frac < 1 / 2 then f
  else if 1 / 2 < frac then f + 1
  else if f % 2 = 0 then f else f + 1

/-- Embeds `round(q, n)`: round half to even at `n` decimal places. -/
def roundHalfEvenDp (n : ℕ) (q : ℚ) : ℚ :=
  (roundHalfEvenInt (q * 10 ^ n) : ℚ) / 10 ^ n

namespace UnrealizedGainReport

/-- Embeds `unrealized_gain_report._effective_date`. -/
def effective_date (record : TransactionRecord) : Option ℕ :=
  match record.trade_date with
  | some d => some d
  | none => record.settlement_date

/-- Embeds `unrealized_gain_report._infer_signed_quantity` (a local copy of the
rule in `transaction_utils`). -/
def infer_signed_quantity (record : TransactionRecord) : Option ℚ :=
  match record.quantity with
  | none => none
  | some q =>
    if record.description = some "buy" then some q
    else if record.description = some "sell" then some (-q)
    else none

/-- Embeds `unrealized_gain_report._transaction_value` (a local copy of
`transaction_utils.transaction_value`). -/
def transaction_value (record : TransactionRecord) (signed_quantity : ℚ) : Option ℚ :=
  match record.price, record.quantity with
  | some price, some quantity => some (price * quantity)
  | _, _ =>
    if 0 < signed_quantity ∧ record.debit.isSome then record.debit
    else if signed_quantity < 0 ∧ record.credit.isSome then record.credit
    else none

/-- Embeds `unrealized_gain_report._apply_transaction`: the replay ledger step.
Unlike `transaction_utils.apply_transaction_to_position_costs` it returns
nothing and never consults the transaction value on disposals. -/
def apply_transaction (record : TransactionRecord) (positions : PMap) : PMap :=
  match infer_signed_quantity record with
  | none => positions
  | some signed_quantity =>
    match record.symbol with
    | none => positions
    | some symbol =>
      if symbol = "" then positions
      else
        let position := alistGet positions symbol ⟨0, 0⟩
        if 0 < signed_quantity then
          let value := pyOrZero (transaction_value record signed_quantity)
          alistSet positions symbol
            ⟨position.quantity + signed_quantity, position.book_cost + value⟩
        else
          let sell_quantity := -signed_quantity
          if position.quantity = 0 then
            alistSet positions symbol
              ⟨position.quantity - sell_quantity, position.book_cost⟩
          else
            let average_cost :=
              if position.quantity ≠ 0 then position.book_cost / position.quantity else 0
            alistSet positions symbol
              ⟨position.quantity - sell_quantity,
               position.book_cost - average_cost * sell_quantity⟩

/-- Sort key used by `_book_costs_by_date` on the filtered transaction
list (every record there has a determinable effective date). -/
def keyOf (record : TransactionRecord) : ℕ :=
  (effective_date record).getD 0

/-- Whether a record has a determinable effective date (the list
comprehension filter in `_book_costs_by_date`). -/
def hasEff (record : TransactionRecord) : Bool :=
  (effective_date record).isSome

/-- Ordering of transactions by effective date, as a relation for
`List.insertionSort`. -/
def keyLe (a b : TransactionRecord) : Prop :=
  keyOf a ≤ keyOf b

instance : DecidableRel keyLe := fun x y => Nat.decLe (keyOf x) (keyOf y)

instance : IsTotal TransactionRecord keyLe := ⟨fun x y => Nat.le_total (keyOf x) (keyOf y)⟩

instance : IsTrans TransactionRecord keyLe := ⟨fun _ _ _ h h2 => Nat.le_trans h h2⟩

/-- Embeds `sorted(..., key=_effective_date)` over the records that passed the
effective-date filter: a stable ascending sort by effective date
(insertion sort is stable, like Python sorted). -/
def sortTransactions (records : List TransactionRecord) : List TransactionRecord :=
  List.insertionSort keyLe records

/-- Embeds `sorted(set(valuation_dates))`. -/
def sortedDates (dates : List ℕ) : List ℕ :=
  List.insertionSort (· ≤ ·) dates.dedup

/-- The cursor advance of `_book_costs_by_date`: the transactions taken by
the inner while loop for one valuation date (stops at a missing effective
date or one past the valuation date, exactly as the loop breaks). -/
def consume (valuation_date : ℕ) : List TransactionRecord → List TransactionRecord
  | [] => []
  | t :: ts =>
    match effective_date t with
    | none => []
    | some e => if valuation_date < e then [] else t :: consume valuation_date ts

/-- The transactions left for later valuation dates after `consume`. -/
def remain (valuation_date : ℕ) : List TransactionRecord → List TransactionRecord
  | [] => []
  | t :: ts =>
    match effective_date t with
    | none => t :: ts
    | some e => if valuation_date < e then t :: ts else remain valuation_date ts

/-- Folding the replay ledger step over a list of transactions. -/
def applyFold (positions : PMap) (records : List TransactionRecord) : PMap :=
  records.foldl (fun m t => apply_transaction t m) positions

/-- The date loop of `_book_costs_by_date`: one running ledger, one
cursor; snapshots the ledger after consuming the transactions of each date. -/
def replayLoop : List ℕ → List TransactionRecord → PMap → List (ℕ × PMap)
  | [], _, _ => []
  | d :: ds, txns, positions =>
    let positions2 := applyFold positions (consume d txns)
    (d, positions2) :: replayLoop ds (remain d txns) positions2

/-- Embeds `unrealized_gain_report._book_costs_by_date`. -/
def book_costs_by_date (transactions : List TransactionRecord) (valuation_dates : List ℕ) :
    List (ℕ × PMap) :=
  replayLoop (sortedDates valuation_dates)
    (sortTransactions (transactions.filter fun t => hasEff t)) []

/-- Embeds `unrealized_gain_report._market_value`. -/
def market_value (holding : HoldingRecord) : ℚ :=
  match holding.market_value with
  | some v => v
  | none =>
    match holding.quantity, holding.price with
    | some q, some p => q * p
    | _, _ => 0

/-- The per-holding row construction of
`unrealized_gain_report.summarize_unrealized_gains` (the body of the
holdings loop): given the account name and the replayed positions for the
valuation date of the holding, build the `UnrealizedGainRow`.  Python
`round(None, 4)` raises `TypeError`, modelled by `Except.error`. -/
def summarize_row (account_name : String) (positions : PMap) (holding : HoldingRecord) :
    Except String UnrealizedGainRow :=
  let position := alistGet positions holding.symbol ⟨0, 0⟩
  let mv := market_value holding
  let book_cost := position.book_cost
  let unrealized_gain := mv - book_cost
  let unrealized_gain_pct : Option ℚ :=
    if book_cost ≠ 0 then some (unrealized_gain / book_cost) else none
  match unrealized_gain_pct with
  | none => Except.error "TypeError: type NoneType does not define a rounding method"
  | some pct =>
    Except.ok
      { account_name := account_name
        valuation_date := holding.valuation_date
        symbol := holding.symbol
        name := holding.name
        quantity := holding.quantity
        price := holding.price
        market_value := roundHalfEvenDp 2 mv
        book_cost := roundHalfEvenDp 2 book_cost
        unrealized_gain := roundHalfEvenDp 2 unrealized_gain
        unrealized_gain_pct := some (roundHalfEvenDp 4 pct)
        currency := holding.currency }

end UnrealizedGainReport

namespace Reconcile

/-- Embeds the effective date of a `reconcile.TransactionRow`
(`record.trade_date or record.settlement_date`). -/
def effective_date_row (record : TransactionRow) : Option ℕ :=
  match record.trade_date with
  | some d => some d
  | none => record.settlement_date

/-- Embeds `reconcile._infer_signed_quantity`: sign inferred from which of
debit/credit is present (NOT from the description tag). -/
def infer_signed_quantity (record : TransactionRow) : Option ℚ :=
  match record.quantity with
  | none => none
  | some q =>
    if record.debit.isSome ∧ record.credit = none then some q
    else if record.credit.isSome ∧ record.debit = none then some (-q)
    else none

/-- One step of `reconcile.build_positions`. -/
def build_positions_step (valuation_date : ℕ) (positions : List (String × ℚ))
    (record : TransactionRow) : List (String × ℚ) :=
  match effective_date_row record with
  | none => positions
  | some e =>
    if valuation_date < e then positions
    else
      match record.symbol with
      | none => positions
      | some s =>
        if s = "" then positions
        else
          match infer_signed_quantity record with
          | none => positions
          | some signed_quantity =>
            alistSet positions s (alistGet positions s 0 + signed_quantity)

/-- Embeds `reconcile.build_positions`. -/
def build_positions (transactions : List TransactionRow) (valuation_date : ℕ) :
    List (String × ℚ) :=
  transactions.foldl (build_positions_step valuation_date) []

/-- The mismatch built by `reconcile.reconcile_positions` for one symbol. -/
def mismatch_for (account_name : String) (valuation_date : ℕ)
    (holdings positions : List (String × ℚ)) (s : String) : PositionMismatch :=
  { account_name := account_name
    valuation_date := valuation_date
    symbol := s
    holdings_quantity := alistGet holdings s 0
    transaction_quantity := alistGet positions s 0
    delta := alistGet holdings s 0 - alistGet positions s 0 }

/-- Embeds `reconcile.reconcile_positions`, with the CSV reading of the two input
files (excluded I/O) replaced by the in-memory transaction list and
holdings mapping they produce; `holdings_location` stands for
`holdings_path.parent.name`. -/
def reconcile_positions (transactions : List TransactionRow)
    (holdings : List (String × ℚ)) (valuation_date : ℕ) (holdings_location : String) :
    List PositionMismatch :=
  let positions := build_positions transactions valuation_date
  let account_name :=
    match transactions with
    | [] => holdings_location
    | t :: _ => t.account_name
  let symbols :=
    List.insertionSort (· ≤ ·) ((positions.map Prod.fst ++ holdings.map Prod.fst).dedup)
  (symbols.filter fun s => alistGet holdings s 0 - alistGet positions s 0 ≠ 0).map
    (mismatch_for account_name valuation_date holdings positions)

end Reconcile

section ClaimTheorems

open TransactionUtils

/-- Claim C8: for every acquisition (signed quantity > 0), the ledger
apply adds the signed quantity to the position quantity and the
transaction value (zero if undetermined) to its book cost, and returns no
realized gain. -/
theorem apply_acquisition_accumulates
    (record : TransactionRecord) (positions : PMap) (sq : ℚ) (s : String)
    (h1 : infer_signed_quantity record = some sq)
    (h2 : 0 < sq)
    (h3 : record.symbol = some s)
    (h4 : s ≠ "") :
    apply_transaction_to_position_costs record positions =
      (alistSet positions s
        ⟨(alistGet positions s ⟨0, 0⟩).quantity + sq,
         (alistGet positions s ⟨0, 0⟩).book_cost + (transaction_value record sq).getD 0⟩,
       none) := by
  simp [apply_transaction_to_position_costs, h1, h2, h3, h4, pyOrZero_eq_getD]

/-- Claim C3: for every disposal (signed quantity < 0) with determinable
proceeds against a position of quantity q ≠ 0 and book cost b, the new
state is quantity q − sell_qty and book cost b − (b/q)·sell_qty, and the
realized gain is proceeds − (b/q)·sell_qty; quantity is allowed to go
negative (oversell is not rejected). -/
theorem apply_disposal_average_cost_and_realized_gain
    (record : TransactionRecord) (positions : PMap) (sq q b proceeds : ℚ) (s : String)
    (h1 : infer_signed_quantity record = some sq)
    (h2 : sq < 0)
    (h3 : record.symbol = some s)
    (h4 : s ≠ "")
    (h5 : transaction_value record sq = some proceeds)
    (h6 : alistGet positions s ⟨0, 0⟩ = ⟨q, b⟩)
    (h7 : q ≠ 0) :
    apply_transaction_to_position_costs record positions =
      (alistSet positions s ⟨q - (-sq), b - b / q * (-sq)⟩,
       some (proceeds - b / q * (-sq))) := by
  have h2' : ¬ 0 < sq := not_lt.mpr h2.le
  simp [apply_transaction_to_position_costs, h1, h2', h3, h4, h5, h6, h7]

/-- Claim C6: a disposal with determinable proceeds against a position of
quantity exactly zero performs no division: the average cost is taken as
zero, so the book cost is unchanged, quantity becomes −sell_qty, and the
full proceeds are returned as realized gain. -/
theorem apply_disposal_empty_position_no_division
    (record : TransactionRecord) (positions : PMap) (sq b proceeds : ℚ) (s : String)
    (h1 : infer_signed_quantity record = some sq)
    (h2 : sq < 0)
    (h3 : record.symbol = some s)
    (h4 : s ≠ "")
    (h5 : transaction_value record sq = some proceeds)
    (h6 : alistGet positions s ⟨0, 0⟩ = ⟨0, b⟩) :
    apply_transaction_to_position_costs record positions =
      (alistSet positions s ⟨sq, b⟩, some proceeds) := by
  have h2' : ¬ 0 < sq := not_lt.mpr h2.le
  simp [apply_transaction_to_position_costs, h1, h2', h3, h4, h5, h6]

/-- Claim C5 (amended): in the `transaction_utils` ledger, a disposal
whose proceeds are undetermined is a no-op: the mapping is unchanged and
no realized gain is returned.  (The unrealized-gain report replay
ledger does not share this behaviour; see the counterexample.) -/
theorem ledger_disposal_without_value_is_noop
    (record : TransactionRecord) (positions : PMap) (sq : ℚ)
    (h1 : infer_signed_quantity record = some sq)
    (h2 : sq < 0)
    (h3 : transaction_value record sq = none) :
    apply_transaction_to_position_costs record positions = (positions, none) := by
  have h2' : ¬ 0 < sq := not_lt.mpr h2.le
  cases hs : record.symbol with
  | none => simp [apply_transaction_to_position_costs, h1, hs]
  | some s =>
    by_cases hse : s = "" <;>
      simp [apply_transaction_to_position_costs, h1, h2', h3, hs, hse]

/-- The Transaction Valuer precedence exactly as the claim words it:
price × quantity when both are present; else the credit for a disposal;
else the debit for an acquisition; else undetermined. -/
def transaction_value_claim (record : TransactionRecord) (signed_quantity : ℚ) : Option ℚ :=
  match record.price, record.quantity with
  | some price, some quantity => some (price * quantity)
  | _, _ =>
    if signed_quantity < 0 ∧ record.credit.isSome then record.credit
    else if 0 < signed_quantity ∧ record.debit.isSome then record.debit
    else none

/-- Claim C9: the Transaction Valuer follows the claimed precedence (the
source checks the acquisition/debit case before the disposal/credit case,
but the two guards are mutually exclusive, so the order is immaterial). -/
theorem transaction_value_precedence (record : TransactionRecord) (signed_quantity : ℚ) :
    transaction_value record signed_quantity = transaction_value_claim record signed_quantity := by
  unfold transaction_value transaction_value_claim
  cases hp : record.price with
  | some price =>
    cases hq : record.quantity with
    | some quantity => rfl
    | none =>
      rcases lt_trichotomy signed_quantity 0 with h | h | h
      · simp [h, not_lt.mpr h.le]
      · simp [h]
      · simp [h, not_lt.mpr h.le]
  | none =>
    rcases lt_trichotomy signed_quantity 0 with h | h | h
    · simp [h, not_lt.mpr h.le]
    · simp [h]
    · simp [h, not_lt.mpr h.le]

/-- Claim C10: the ledger apply touches at most the entry of the own symbol of the record: the mapping is returned unchanged when the signed quantity is
undetermined or the symbol is missing, and the binding of every other
symbol is unchanged in all cases. -/
theorem apply_frame_property (record : TransactionRecord) (positions : PMap) :
    ((infer_signed_quantity record = none ∨ record.symbol = none) →
      apply_transaction_to_position_costs record positions = (positions, none)) ∧
    (∀ s : String, record.symbol ≠ some s →
      alistLookup (apply_transaction_to_position_costs record positions).1 s =
        alistLookup positions s) := by
  constructor
  · rintro (h | h)
    · simp [apply_transaction_to_position_costs, h]
    · cases hinf : infer_signed_quantity record <;>
        simp [apply_transaction_to_position_costs, hinf, h]
  · intro s hs
    cases hinf : infer_signed_quantity record with
    | none => simp [apply_transaction_to_position_costs, hinf]
    | some sq =>
      cases hsym : record.symbol with
      | none => simp [apply_transaction_to_position_costs, hinf, hsym]
      | some sym =>
        have hne : sym ≠ s := by
          intro he
          exact hs (by rw [hsym, he])
        by_cases hse : sym = ""
        · simp [apply_transaction_to_position_costs, hinf, hsym, hse]
        · by_cases hpos : 0 < sq
          · simp [apply_transaction_to_position_costs, hinf, hsym, hse, hpos,
              alistLookup_alistSet_ne _ _ _ _ hne]
          · cases htv : transaction_value record sq with
            | none => simp [apply_transaction_to_position_costs, hinf, hsym, hse, hpos, htv]
            | some proceeds =>
              simp [apply_transaction_to_position_costs, hinf, hsym, hse, hpos, htv,
                alistLookup_alistSet_ne _ _ _ _ hne]

end ClaimTheorems

section ConcreteRecords

/-- buy 10 @ $5 (testable property of spec section 8). -/
def buyTenAtFive : TransactionRecord :=
  { account_name := "acct", trade_date := some 1, settlement_date := none,
    symbol := some "X", quantity := some 10, price := some 5,
    description := some "buy", debit := none, credit := none }

/-- buy 5 @ $8 (testable property of spec section 8). -/
def buyFiveAtEight : TransactionRecord :=
  { account_name := "acct", trade_date := some 2, settlement_date := none,
    symbol := some "X", quantity := some 5, price := some 8,
    description := some "buy", debit := none, credit := none }

/-- sell 20 @ $7: an oversell against a position of 10. -/
def sellTwentyAtSeven : TransactionRecord :=
  { account_name := "acct", trade_date := some 3, settlement_date := none,
    symbol := some "X", quantity := some 20, price := some 7,
    description := some "sell", debit := none, credit := none }

/-- sell 5 @ $9 against an empty position. -/
def sellFiveAtNine : TransactionRecord :=
  { account_name := "acct", trade_date := some 3, settlement_date := none,
    symbol := some "X", quantity := some 5, price := some 9,
    description := some "sell", debit := none, credit := none }

/-- sell 5 with no price, no debit and no credit: its proceeds are
undetermined. -/
def sellFiveNoValue : TransactionRecord :=
  { account_name := "acct", trade_date := some 3, settlement_date := none,
    symbol := some "X", quantity := some 5, price := none,
    description := some "sell", debit := none, credit := none }

/-- A reconciler row carrying a `dividend` description together with a
debit amount. -/
def rowDividend : TransactionRow :=
  { account_name := "acct", trade_date := some 1, settlement_date := none,
    symbol := some "X", quantity := some 5, description := some "dividend",
    debit := some 10, credit := none }

/-- A holding whose symbol has no replay history (book cost 0) and a
declared market value of 50. -/
def holdingZeroBook : HoldingRecord :=
  { account_name := "acct", valuation_date := 10, symbol := "X", name := none,
    quantity := none, price := none, average_price := none,
    market_value := some 50, book_cost := none, gain_loss := none,
    gain_loss_pct := none, currency := none }

end ConcreteRecords

section ClaimWitnesses

open TransactionUtils

/-- Witness for C8 at the spec example: {buy 10 @ $5, buy 5 @ $8} applied
to an empty ledger yields quantity 15, book cost 90. -/
theorem apply_acquisition_accumulates_witness :
    apply_transaction_to_position_costs buyTenAtFive [] = ([("X", ⟨10, 50⟩)], none) ∧
    apply_transaction_to_position_costs buyFiveAtEight [("X", ⟨10, 50⟩)] =
      ([("X", ⟨15, 90⟩)], none) := by
  have h := apply_acquisition_accumulates buyFiveAtEight [("X", ⟨10, 50⟩)] 5 "X"
    rfl (by norm_num) rfl (by decide)
  have hx : ("X" : String) ≠ "" := by decide
  constructor
  · norm_num [apply_transaction_to_position_costs, infer_signed_quantity,
      infer_signed_quantity_from_fields, transaction_value, pyOrZero, buyTenAtFive,
      alistGet, alistLookup, alistSet, hx]
  · refine h.trans ?_
    norm_num [alistSet, alistGet, alistLookup, transaction_value, buyFiveAtEight]

/-- Witness for C3 at the spec oversell example: selling 20 @ $7 from a
position of 10 at book cost 60 yields quantity −10, book cost −60 and
realized gain 140 − 120 = 20. -/
theorem apply_disposal_average_cost_and_realized_gain_witness :
    infer_signed_quantity sellTwentyAtSeven = some (-20) ∧
    transaction_value sellTwentyAtSeven (-20) = some 140 ∧
    apply_transaction_to_position_costs sellTwentyAtSeven [("X", ⟨10, 60⟩)] =
      ([("X", ⟨-10, -60⟩)], some 20) := by
  have htv : transaction_value sellTwentyAtSeven (-20) = some 140 := by
    norm_num [transaction_value, sellTwentyAtSeven]
  have h := apply_disposal_average_cost_and_realized_gain sellTwentyAtSeven
    [("X", ⟨10, 60⟩)] (-20) 10 60 140 "X" rfl (by norm_num) rfl (by decide) htv rfl
    (by norm_num)
  refine ⟨rfl, htv, h.trans ?_⟩
  norm_num [alistSet]

/-- Witness for C6: selling 5 @ $9 (proceeds 45) from an empty position
yields quantity −5, unchanged book cost 0, and the full proceeds as
realized gain. -/
theorem apply_disposal_empty_position_no_division_witness :
    infer_signed_quantity sellFiveAtNine = some (-5) ∧
    transaction_value sellFiveAtNine (-5) = some 45 ∧
    apply_transaction_to_position_costs sellFiveAtNine [] = ([("X", ⟨-5, 0⟩)], some 45) := by
  have htv : transaction_value sellFiveAtNine (-5) = some 45 := by
    norm_num [transaction_value, sellFiveAtNine]
  have h := apply_disposal_empty_position_no_division sellFiveAtNine [] (-5) 0 45 "X"
    rfl (by norm_num) rfl (by decide) htv rfl
  exact ⟨rfl, htv, h.trans rfl⟩

/-- Witness for C5 (amended): a disposal of 5 with no price, debit or
credit leaves the `transaction_utils` ledger untouched. -/
theorem ledger_disposal_without_value_is_noop_witness :
    infer_signed_quantity sellFiveNoValue = some (-5) ∧
    transaction_value sellFiveNoValue (-5) = none ∧
    apply_transaction_to_position_costs sellFiveNoValue [("X", ⟨10, 60⟩)] =
      ([("X", ⟨10, 60⟩)], none) := by
  have htv : transaction_value sellFiveNoValue (-5) = none := by
    simp [transaction_value, sellFiveNoValue]
  exact ⟨rfl, htv,
    ledger_disposal_without_value_is_noop sellFiveNoValue [("X", ⟨10, 60⟩)] (-5)
      rfl (by norm_num) htv⟩

/-- Witness for C10: a buy of symbol X leaves the binding of symbol Y
untouched. -/
theorem apply_frame_property_witness :
    buyTenAtFive.symbol ≠ some "Y" ∧
    alistLookup (apply_transaction_to_position_costs buyTenAtFive [("Y", ⟨1, 2⟩)]).1 "Y" =
      alistLookup [("Y", ⟨1, 2⟩)] "Y" :=
  ⟨by decide, (apply_frame_property buyTenAtFive [("Y", ⟨1, 2⟩)]).2 "Y" (by decide)⟩

end ClaimWitnesses

section RuleClaims

open TransactionUtils

/-- Counterexample for C4: the Position Reconciler infers a signed
quantity from debit/credit presence, not from the `buy`/`sell`
description.  A row with description `dividend`, quantity 5 and a debit
present is assigned signed quantity +5 by the reconciler, although the
claimed rule calls it undetermined. -/
theorem reconcile_sign_rule_counterexample :
    Reconcile.infer_signed_quantity rowDividend = some 5 ∧
    infer_signed_quantity_from_fields rowDividend.quantity rowDividend.description = none := by
  constructor <;> rfl

/-- Claim C4 (amended): the ledger and the unrealized-gain report resolve
the signed quantity by the description rule (`buy` gives +quantity,
`sell` gives −quantity, anything else or a null quantity is
undetermined), while the Position Reconciler instead uses +quantity when
a debit is present and no credit, −quantity when a credit is present and
no debit, and undetermined otherwise. -/
theorem sign_rules_by_component :
    (∀ (quantity : Option ℚ) (description : Option String),
      infer_signed_quantity_from_fields quantity description =
        match quantity with
        | none => none
        | some q =>
          if description = some "buy" then some q
          else if description = some "sell" then some (-q)
          else none) ∧
    (∀ record : TransactionRecord,
      UnrealizedGainReport.infer_signed_quantity record =
        infer_signed_quantity_from_fields record.quantity record.description) ∧
    (∀ row : TransactionRow,
      Reconcile.infer_signed_quantity row =
        match row.quantity with
        | none => none
        | some q =>
          if row.debit.isSome ∧ row.credit = none then some q
          else if row.credit.isSome ∧ row.debit = none then some (-q)
          else none) := by
  refine ⟨fun quantity description => ?_, fun record => ?_, fun row => ?_⟩
  · cases quantity <;> rfl
  · obtain ⟨an, td, sd, sym, q, p, d, de, cr⟩ := record
    cases q <;> rfl
  · obtain ⟨an, td, sd, sym, q, d, de, cr⟩ := row
    cases q <;> rfl

end RuleClaims

section ReportClaims

/-- Counterexample for C5: the unrealized-gain report replay ledger
applies a disposal even when its proceeds are undetermined: the sale of 5
with no price, debit or credit drives the empty mapping to a −5 position
instead of leaving it unchanged. -/
theorem report_apply_disposal_without_value_not_noop :
    UnrealizedGainReport.infer_signed_quantity sellFiveNoValue = some (-5) ∧
    UnrealizedGainReport.transaction_value sellFiveNoValue (-5) = none ∧
    UnrealizedGainReport.apply_transaction sellFiveNoValue [] = [("X", ⟨-5, 0⟩)] ∧
    UnrealizedGainReport.apply_transaction sellFiveNoValue [] ≠ [] := by
  have htv : UnrealizedGainReport.transaction_value sellFiveNoValue (-5) = none := by
    simp [UnrealizedGainReport.transaction_value, sellFiveNoValue]
  have hx : ("X" : String) ≠ "" := by decide
  have hb : ("sell" : String) ≠ "buy" := by decide
  have happ : UnrealizedGainReport.apply_transaction sellFiveNoValue [] = [("X", ⟨-5, 0⟩)] := by
    norm_num [UnrealizedGainReport.apply_transaction,
      UnrealizedGainReport.infer_signed_quantity, sellFiveNoValue, alistGet, alistLookup,
      alistSet, hx, hb]
  refine ⟨rfl, htv, happ, ?_⟩
  rw [happ]
  simp

/-- Claim C1 (code bug): for a holding whose book cost is zero the code
reaches `round(None, 4)` — `unrealized_gain_pct` is `None` and `round`
raises `TypeError` — so no row at all is produced, where the claim (and
the spec) call for a row with the percentage omitted.  Evaluated at a
holding with market value 50 and no replay history. -/
theorem summarize_row_zero_book_cost_raises_type_error :
    UnrealizedGainReport.summarize_row "acct" [] holdingZeroBook =
      Except.error "TypeError: type NoneType does not define a rounding method" := by
  simp [UnrealizedGainReport.summarize_row, UnrealizedGainReport.market_value,
    holdingZeroBook, alistGet, alistLookup]

end ReportClaims

section ReconcileClaims

/-- Claim C7: `reconcile_positions` emits exactly one mismatch per symbol
of the union of the two sources whose quantities differ (a symbol absent
from one source counting as zero), no mismatch for symbols with equal
quantities, with delta = holdings − transactions, output sorted by
symbol, and the account name taken from the first transaction when one
exists, else from the holdings container location. -/
theorem reconcile_positions_characterization
    (transactions : List TransactionRow) (holdings : List (String × ℚ))
    (valuation_date : ℕ) (holdings_location : String) :
    ((Reconcile.reconcile_positions transactions holdings valuation_date
        holdings_location).map (fun m => m.symbol)).Nodup ∧
    (Reconcile.reconcile_positions transactions holdings valuation_date
        holdings_location).Pairwise (fun m1 m2 => m1.symbol ≤ m2.symbol) ∧
    (∀ s : String,
      (∃ m ∈ Reconcile.reconcile_positions transactions holdings valuation_date
          holdings_location, m.symbol = s) ↔
        ((s ∈ (Reconcile.build_positions transactions valuation_date).map Prod.fst ∨
            s ∈ holdings.map Prod.fst) ∧
          alistGet holdings s 0 ≠
            alistGet (Reconcile.build_positions transactions valuation_date) s 0)) ∧
    (∀ m ∈ Reconcile.reconcile_positions transactions holdings valuation_date
        holdings_location,
      m.holdings_quantity = alistGet holdings m.symbol 0 ∧
      m.transaction_quantity =
        alistGet (Reconcile.build_positions transactions valuation_date) m.symbol 0 ∧
      m.delta = m.holdings_quantity - m.transaction_quantity ∧
      m.valuation_date = valuation_date ∧
      m.account_name =
        (match transactions with
         | [] => holdings_location
         | t :: _ => t.account_name)) := by
  have hdef : Reconcile.reconcile_positions transactions holdings valuation_date
      holdings_location =
      ((List.insertionSort (· ≤ ·)
          (((Reconcile.build_positions transactions valuation_date).map Prod.fst ++
            holdings.map Prod.fst).dedup)).filter
        (fun s => alistGet holdings s 0 -
          alistGet (Reconcile.build_positions transactions valuation_date) s 0 ≠ 0)).map
        (Reconcile.mismatch_for
          (match transactions with
           | [] => holdings_location
           | t :: _ => t.account_name)
          valuation_date holdings (Reconcile.build_positions transactions valuation_date)) :=
    rfl
  have hnodup :
      (List.insertionSort (· ≤ ·)
        (((Reconcile.build_positions transactions valuation_date).map Prod.fst ++
          holdings.map Prod.fst).dedup)).Nodup :=
    (List.perm_insertionSort _ _).nodup_iff.mpr (List.nodup_dedup _)
  have hsorted :
      (List.insertionSort (· ≤ ·)
        (((Reconcile.build_positions transactions valuation_date).map Prod.fst ++
          holdings.map Prod.fst).dedup)).Sorted (· ≤ ·) :=
    List.sorted_insertionSort _ _
  have hmem : ∀ s : String,
      s ∈ List.insertionSort (· ≤ ·)
        (((Reconcile.build_positions transactions valuation_date).map Prod.fst ++
          holdings.map Prod.fst).dedup) ↔
      s ∈ (Reconcile.build_positions transactions valuation_date).map Prod.fst ∨
        s ∈ holdings.map Prod.fst := by
    intro s
    rw [(List.perm_insertionSort _ _).mem_iff, List.mem_dedup, List.mem_append]
  have hsymmap : ∀ (acct : String) (P holdings2 : List (String × ℚ)) (l : List String),
      (l.map (Reconcile.mismatch_for acct valuation_date holdings2 P)).map
        (fun m => m.symbol) = l := by
    intro acct P holdings2 l
    induction l with
    | nil => rfl
    | cons a t ih => simp only [List.map_cons, ih, Reconcile.mismatch_for]
  refine ⟨?_, ?_, ?_, ?_⟩
  · rw [hdef, hsymmap]
    exact hnodup.filter _
  · rw [hdef]
    refine List.pairwise_map.mpr ?_
    exact List.Pairwise.sublist (List.filter_sublist _) hsorted
  · intro s
    rw [hdef]
    constructor
    · rintro ⟨m, hm, hms⟩
      obtain ⟨a, ha, rfl⟩ := List.mem_map.mp hm
      have ha2 := List.mem_filter.mp ha
      have heq : a = s := hms
      subst heq
      refine ⟨(hmem a).mp ha2.1, ?_⟩
      exact sub_ne_zero.mp (of_decide_eq_true ha2.2)
    · rintro ⟨hin, hne⟩
      refine ⟨_, List.mem_map_of_mem _
        (List.mem_filter.mpr ⟨(hmem s).mpr hin, decide_eq_true (sub_ne_zero.mpr hne)⟩), rfl⟩
  · intro m hm
    rw [hdef] at hm
    obtain ⟨a, ha, rfl⟩ := List.mem_map.mp hm
    exact ⟨rfl, rfl, rfl, rfl, rfl⟩

/-- Witness for C7: with no transactions and a single declared holding of
3 units of X, a mismatch for X is emitted. -/
theorem reconcile_positions_characterization_witness :
    ∃ m ∈ Reconcile.reconcile_positions [] [("X", 3)] 10 "loc", m.symbol = "X" := by
  have h := (reconcile_positions_characterization [] [("X", 3)] 10 "loc").2.2.1 "X"
  refine h.mpr ⟨Or.inr ?_, ?_⟩
  · simp
  · norm_num [Reconcile.build_positions, alistGet, alistLookup]

end ReconcileClaims

section ReplayClaims

open UnrealizedGainReport

/-- The reference replay the claim describes: starting from the empty
mapping, fold exactly the transactions with a determinable effective date
at most `d`, in ascending effective-date order (ties in source order) —
with no reference to any requested date set. -/
def replay_from_empty_up_to (transactions : List TransactionRecord) (d : ℕ) : PMap :=
  applyFold []
    ((sortTransactions (transactions.filter fun t => hasEff t)).filter
      (fun t => keyOf t ≤ d))

theorem consume_append_remain (d : ℕ) (l : List TransactionRecord) :
    consume d l ++ remain d l = l := by
  induction l with
  | nil => rfl
  | cons t ts ih =>
    cases he : effective_date t with
    | none => simp [consume, remain, he]
    | some e =>
      by_cases hlt : d < e
      · simp [consume, remain, he, hlt]
      · simp [consume, remain, he, hlt, ih]

theorem mem_consume_le (d : ℕ) (l : List TransactionRecord) :
    ∀ t ∈ consume d l, keyOf t ≤ d := by
  induction l with
  | nil => simp [consume]
  | cons t ts ih =>
    cases he : effective_date t with
    | none => simp [consume, he]
    | some e =>
      by_cases hlt : d < e
      · simp [consume, he, hlt]
      · intro u hu
        rw [consume] at hu
        simp only [he, hlt, if_neg (by omega : ¬ d < e)] at hu
        rcases List.mem_cons.mp hu with rfl | hu
        · simp only [keyOf, he, Option.getD_some]
          omega
        · exact ih u hu

theorem remain_sublist (d : ℕ) (l : List TransactionRecord) :
    List.Sublist (remain d l) l := by
  induction l with
  | nil => simp [remain]
  | cons t ts ih =>
    cases he : effective_date t with
    | none => simp [remain, he]
    | some e =>
      by_cases hlt : d < e
      · simp [remain, he, hlt]
      · rw [remain]
        simp only [he, if_neg (by omega : ¬ d < e)]
        exact ih.trans (List.sublist_cons_self t ts)

theorem consume_eq_filter (d : ℕ) (l : List TransactionRecord)
    (hall : ∀ t ∈ l, hasEff t = true) (hs : l.Pairwise keyLe) :
    consume d l = l.filter (fun t => keyOf t ≤ d) := by
  induction l with
  | nil => rfl
  | cons t ts ih =>
    have ht := hall t (List.mem_cons_self t ts)
    obtain ⟨e, he⟩ : ∃ e, effective_date t = some e := by
      cases hx : effective_date t with
      | none => rw [hasEff, hx] at ht; simp at ht
      | some e => exact ⟨e, rfl⟩
    have hkey : keyOf t = e := by simp [keyOf, he]
    rw [List.pairwise_cons] at hs
    by_cases hlt : d < e
    · have hfilter : ts.filter (fun u => keyOf u ≤ d) = [] := by
        rw [List.filter_eq_nil_iff]
        intro u hu
        have hle := hs.1 u hu
        rw [keyLe, hkey] at hle
        simp only [decide_eq_true_eq]
        omega
      rw [consume]
      simp only [he, if_pos hlt, List.filter_cons]
      rw [if_neg (by simp only [hkey, decide_eq_true_eq]; omega), hfilter]
    · rw [consume]
      simp only [he, if_neg hlt, List.filter_cons]
      rw [if_pos (by simp only [hkey, decide_eq_true_eq]; omega)]
      rw [ih (fun u hu => hall u (List.mem_cons_of_mem t hu)) hs.2]

theorem filter_le_eq_consume_append (d D : ℕ) (l : List TransactionRecord) :
    l.filter (fun t => keyOf t ≤ D) =
      (consume d l).filter (fun t => keyOf t ≤ D) ++
        (remain d l).filter (fun t => keyOf t ≤ D) := by
  conv_lhs => rw [← consume_append_remain d l]
  exact List.filter_append _ _

theorem filter_consume_eq_self (d D : ℕ) (hdD : d ≤ D) (l : List TransactionRecord) :
    (consume d l).filter (fun t => keyOf t ≤ D) = consume d l := by
  rw [List.filter_eq_self]
  intro u hu
  have := mem_consume_le d l u hu
  simp only [decide_eq_true_eq]
  omega

theorem replayLoop_lookup (L : List TransactionRecord) (ds : List ℕ) :
    ∀ (l C : List TransactionRecord),
      ds.Pairwise (· ≤ ·) →
      (∀ t ∈ l, hasEff t = true) →
      l.Pairwise keyLe →
      (∀ d ∈ ds, L.filter (fun t => keyOf t ≤ d) = C ++ l.filter (fun t => keyOf t ≤ d)) →
      ∀ D ∈ ds,
        alistLookup (replayLoop ds l (applyFold [] C)) D =
          some (applyFold [] (L.filter (fun t => keyOf t ≤ D))) := by
  induction ds with
  | nil =>
    intro l C _ _ _ _ D hD
    simp at hD
  | cons d ds ih =>
    intro l C hds hall hs hinv D hD
    rw [List.pairwise_cons] at hds
    have hpos2 : applyFold (applyFold [] C) (consume d l) =
        applyFold [] (C ++ consume d l) := by
      rw [applyFold, applyFold, applyFold, List.foldl_append]
    by_cases hDd : d = D
    · subst hDd
      rw [replayLoop]
      simp only [alistLookup, if_pos rfl]
      rw [hpos2, hinv d (List.mem_cons_self d ds),
        consume_eq_filter d l hall hs]
      simp
    · have hD2 : D ∈ ds := by
        rcases List.mem_cons.mp hD with rfl | h
        · exact absurd rfl hDd
        · exact h
      rw [replayLoop]
      simp only [alistLookup]
      rw [if_neg hDd, hpos2]
      refine ih (remain d l) (C ++ consume d l) hds.2
        (fun t ht => hall t ((remain_sublist d l).subset ht))
        (List.Pairwise.sublist (remain_sublist d l) hs) ?_ D hD2
      intro d2 hd2
      rw [hinv d2 (List.mem_cons_of_mem d hd2), List.append_assoc]
      have hdd2 : d ≤ d2 := hds.1 d2 hd2
      rw [filter_le_eq_consume_append d d2 l,
        filter_consume_eq_self d d2 hdd2 l]

/-- Claim C2: the single-pass replay engine snapshot for any requested
date `D` equals the ledger obtained by replaying, from the empty mapping,
exactly the transactions with a determinable effective date ≤ D in
ascending effective-date order; the right-hand side does not mention the
requested date set, so the snapshot at `D` is independent of which other
valuation dates are requested in the same call. -/
theorem book_costs_by_date_eq_replay_le_date
    (transactions : List TransactionRecord) (valuation_dates : List ℕ) (D : ℕ)
    (hD : D ∈ valuation_dates) :
    alistLookup (book_costs_by_date transactions valuation_dates) D =
      some (replay_from_empty_up_to transactions D) := by
  have hds : (sortedDates valuation_dates).Pairwise (· ≤ ·) :=
    List.sorted_insertionSort _ _
  have hall : ∀ t ∈ sortTransactions (transactions.filter fun t => hasEff t),
      hasEff t = true := by
    intro t ht
    have ht2 : t ∈ transactions.filter (fun t => hasEff t) :=
      (List.perm_insertionSort _ _).mem_iff.mp ht
    exact (List.mem_filter.mp ht2).2
  have hs : (sortTransactions (transactions.filter fun t => hasEff t)).Pairwise keyLe :=
    List.sorted_insertionSort keyLe _
  have hDmem : D ∈ sortedDates valuation_dates := by
    rw [sortedDates, (List.perm_insertionSort _ _).mem_iff, List.mem_dedup]
    exact hD
  exact replayLoop_lookup (sortTransactions (transactions.filter fun t => hasEff t))
    (sortedDates valuation_dates)
    (sortTransactions (transactions.filter fun t => hasEff t)) []
    hds hall hs (fun d _ => rfl) D hDmem

/-- Witness for C2: requesting dates {1, 3} over the two spec acquisitions
recovers, at date 3, the replay of the full prefix. -/
theorem book_costs_by_date_eq_replay_le_date_witness :
    (3 : ℕ) ∈ [1, 3] ∧
    alistLookup (book_costs_by_date [buyTenAtFive, buyFiveAtEight] [1, 3]) 3 =
      some (replay_from_empty_up_to [buyTenAtFive, buyFiveAtEight] 3) :=
  ⟨by decide, book_costs_by_date_eq_replay_le_date [buyTenAtFive, buyFiveAtEight] [1, 3] 3
    (by decide)⟩

end ReplayClaims

